import Mathlib

/-!
Shallow embedding of the flashbots repository: the bundle signer
(`sign_bundle` in `src/sync/flashbots.py` and `src/async/flashbots.py`),
timestamp extrapolation, the bundle-response hash, and the
private-transaction inclusion tracker.

External collaborators (chain reader, gas estimator, keccak, RLP/ECDSA
encoding) are out of the repository's scope and are modelled as function
parameters collected in `Env`.  A signed-transaction byte string is
modelled by an inductive that records exactly the data the code places in
it: raw pre-signed bytes decode (via `_parse_signed_tx`) to a sender and a
nonce, so they are carried explicitly; `signer.sign_transaction(tx_dict)`
is determined by the signer's key (identified with its address) and the
dict; `encode_transaction(unsigned_tx, vrs)` is determined by the field
set and `(v, r, s)`.
-/

/-- Ethereum address, modelled as a natural number. -/
abbrev Address := Nat

/-- The nonce ledger `nonces : Dict[HexStr, Nonce]` of `sign_bundle`. -/
abbrev Ledger := Address → Option Nat

/-- Point update of the nonce ledger (`nonces[addr] = n`). -/
def updateLedger (st : Ledger) (a : Address) (n : Nat) : Ledger :=
  fun x => if x = a then some n else st x

/-- The mutable transaction dict of a `FlashbotsBundleTx`
(`tx["transaction"]`).  `nonce` is `Option` because the code tests
`tx_dict.get("nonce") is None`; `gas` is `Option` because the code tests
`"gas" not in tx_dict`; `fromAddr` is the `"from"` key; `rest` stands for
all remaining fields (to, value, data, fee fields), which `sign_bundle`
never reads nor modifies. -/
structure TxDict where
  nonce : Option Nat
  gas : Option Nat
  fromAddr : Option Address
  rest : Nat
deriving DecidableEq

/-- A signing account (`LocalAccount`), identified by its address. -/
structure Signer where
  address : Address
deriving DecidableEq

/-- A `FlashbotsBundleDictTx` (fully decoded legacy-style dict).  Fields
are exactly those `sign_bundle` reads, plus `fromAddr` (the `"from"` key,
present in the TypedDict but never read by the signer).  Optional fields
model key presence; for `accessList`, `chainId` and `to` the code tests
truthiness (`tx.get(key)`), modelled as `Option.isSome`. -/
structure DictTx where
  nonce : Nat
  input : Nat
  value : Nat
  gas : Nat
  v : Nat
  r : Nat
  s : Nat
  maxFeePerGas : Option Nat
  maxPriorityFeePerGas : Option Nat
  gasPrice : Option Nat
  accessList : Option Nat
  chainId : Option Nat
  toAddr : Option Nat
  fromAddr : Option Address
  hash : Nat
deriving DecidableEq

/-- The reconstructed unsigned-transaction field set (`tx_dict`) built by
the `FlashbotsBundleDictTx` branch of the sync `sign_bundle` and passed to
`serializable_unsigned_transaction_from_dict`. -/
structure EncFields where
  nonce : Nat
  data : Nat
  value : Nat
  gas : Nat
  maxFeePerGas : Option Nat
  maxPriorityFeePerGas : Option Nat
  gasPrice : Option Nat
  accessList : Option Nat
  chainId : Option Nat
  toAddr : Option Nat
deriving DecidableEq

/-- A signed-transaction byte string, by provenance:
`raw` models opaque pre-signed bytes together with the sender and nonce
that `_parse_signed_tx` decodes from them; `signed` models
`signer.sign_transaction(tx_dict).rawTransaction`; `encoded` models
`encode_transaction(serializable_unsigned_transaction_from_dict(fields), vrs)`. -/
inductive SignedTx where
  | raw (sender : Address) (nonce : Nat) (body : Nat)
  | signed (sender : Address) (txd : TxDict)
  | encoded (fields : EncFields) (v : Nat) (r : Nat) (s : Nat)
deriving DecidableEq

/-- One element of the `bundled_transactions` argument of `sign_bundle`.
The Python code discriminates by key presence (`"signed_transaction" in
tx`, `"signer" in tx`, `all(key in tx for key in ["v","r","s"])`); the
constructors model the three disjoint shapes, and `unknownTx` models a
dict matching none of them. -/
inductive BundleTx where
  | rawTx (sender : Address) (nonce : Nat) (body : Nat)
  | signerTx (signer : Signer) (transaction : TxDict)
  | dictTx (tx : DictTx)
  | unknownTx (blob : Nat)
deriving DecidableEq

/-- Errors raised by the embedded code.  The three assert sites of the
sync dict branch are Python `assert` statements (`AssertionError`),
distinguished here by site; `unsupportedTx` is the async
`ValueError("Unsupported transaction type in bundle")`;
`negativeExtrapolation` is `Exception("block extrapolation negative")`. -/
inductive Err where
  | assertFeeFields
  | assertGasPrice
  | hashMismatch
  | unsupportedTx
  | negativeExtrapolation
deriving DecidableEq

/-- External collaborators used by `sign_bundle`:
`w3.eth.get_transaction_count`, `w3.eth.estimate_gas`, and `w3.keccak`
applied to signed-transaction bytes. -/
structure Env where
  getTransactionCount : Address → Nat
  estimateGas : TxDict → Nat
  keccak : SignedTx → Nat

/-- The `FlashbotsBundleDictTx` branch, fee-field part: build `tx_dict`
from the non-signature fields.  If `maxFeePerGas` or `maxPriorityFeePerGas`
is present the code asserts both are, else it asserts `gasPrice` is
present; `accessList`, `chainId`, `to` are copied when truthy. -/
def buildDictFields (d : DictTx) : Except Err EncFields :=
  if d.maxFeePerGas.isSome || d.maxPriorityFeePerGas.isSome then
    match d.maxFeePerGas, d.maxPriorityFeePerGas with
    | some mf, some mp =>
        .ok { nonce := d.nonce, data := d.input, value := d.value, gas := d.gas,
              maxFeePerGas := some mf, maxPriorityFeePerGas := some mp,
              gasPrice := none,
              accessList := d.accessList, chainId := d.chainId, toAddr := d.toAddr }
    | _, _ => .error .assertFeeFields
  else
    match d.gasPrice with
    | some gp =>
        .ok { nonce := d.nonce, data := d.input, value := d.value, gas := d.gas,
              maxFeePerGas := none, maxPriorityFeePerGas := none,
              gasPrice := some gp,
              accessList := d.accessList, chainId := d.chainId, toAddr := d.toAddr }
    | none => .error .assertGasPrice

/-- The `"signer" in tx` branch of `sign_bundle`, shared verbatim by the
sync and async versions: set `tx_dict["from"]`, fill the nonce from the
ledger or the chain when absent, advance the ledger, fill `gas` by
estimation when absent, sign.  Returns (signed bytes, new ledger, the
mutated dict). -/
def signerStep (env : Env) (st : Ledger) (s : Signer) (d : TxDict) :
    SignedTx × Ledger × TxDict :=
  let d1 : TxDict := { d with fromAddr := some s.address }
  let usedNonce : Nat :=
    match d1.nonce with
    | some n => n
    | none => (st s.address).getD (env.getTransactionCount s.address)
  let d2 : TxDict := { d1 with nonce := some usedNonce }
  let st' : Ledger := updateLedger st s.address (usedNonce + 1)
  let d3 : TxDict :=
    if d2.gas.isNone then { d2 with gas := some (env.estimateGas d2) } else d2
  (SignedTx.signed s.address d3, st', d3)

/-- One iteration of the sync `sign_bundle` loop over one spec.  Returns
(appended output if any, new ledger, the spec as left after the iteration
-- the signer branch mutates its dict in place).  A spec matching none of
the three shapes falls through every branch: nothing is appended and no
error is raised (there is no `else` in the sync loop). -/
def signOne (env : Env) (st : Ledger) :
    BundleTx → Except Err (Option SignedTx × Ledger × BundleTx)
  | .rawTx sender nonce body =>
      .ok (some (.raw sender nonce body),
           updateLedger st sender (nonce + 1),
           .rawTx sender nonce body)
  | .signerTx s d =>
      let r := signerStep env st s d
      .ok (some r.1, r.2.1, .signerTx s r.2.2)
  | .dictTx d =>
      match buildDictFields d with
      | .error e => .error e
      | .ok f =>
          let raw := SignedTx.encoded f d.v d.r d.s
          if env.keccak raw = d.hash then .ok (some raw, st, .dictTx d)
          else .error .hashMismatch
  | .unknownTx u => .ok (none, st, .unknownTx u)

/-- The sync `sign_bundle` loop, threading the nonce ledger; returns the
appended outputs, the final ledger, and the specs as left after the call. -/
def signBundleAux (env : Env) :
    Ledger → List BundleTx → Except Err (List SignedTx × Ledger × List BundleTx)
  | st, [] => .ok ([], st, [])
  | st, t :: ts =>
      match signOne env st t with
      | .error e => .error e
      | .ok (out?, st', t') =>
          match signBundleAux env st' ts with
          | .error e => .error e
          | .ok (outs, st'', ts') =>
              .ok ((match out? with
                    | some o => o :: outs
                    | none => outs), st'', t' :: ts')

/-- `Flashbots.sign_bundle` (sync): the returned list of raw signed
transactions.  The ledger starts empty. -/
def sign_bundle (env : Env) (specs : List BundleTx) : Except Err (List SignedTx) :=
  (signBundleAux env (fun _ => none) specs).map (fun r => r.1)

/-- The state of the caller-supplied spec list after a successful sync
`sign_bundle` call (the signer branch mutates each `tx["transaction"]`
dict in place). -/
def sign_bundle_mutated (env : Env) (specs : List BundleTx) :
    Except Err (List BundleTx) :=
  (signBundleAux env (fun _ => none) specs).map (fun r => r.2.2)

/-- One iteration of the async `sign_bundle` loop: identical raw and
signer branches, but any other spec raises
`ValueError("Unsupported transaction type in bundle")` (there is no
dict-tx branch in the async version). -/
def signOneAsync (env : Env) (st : Ledger) :
    BundleTx → Except Err (SignedTx × Ledger × BundleTx)
  | .rawTx sender nonce body =>
      .ok (.raw sender nonce body,
           updateLedger st sender (nonce + 1),
           .rawTx sender nonce body)
  | .signerTx s d =>
      let r := signerStep env st s d
      .ok (r.1, r.2.1, .signerTx s r.2.2)
  | _ => .error .unsupportedTx

/-- The async `sign_bundle` loop. -/
def signBundleAsyncAux (env : Env) :
    Ledger → List BundleTx → Except Err (List SignedTx × Ledger × List BundleTx)
  | st, [] => .ok ([], st, [])
  | st, t :: ts =>
      match signOneAsync env st t with
      | .error e => .error e
      | .ok (out, st', t') =>
          match signBundleAsyncAux env st' ts with
          | .error e => .error e
          | .ok (outs, st'', ts') => .ok (out :: outs, st'', t' :: ts')

/-- `Flashbots.sign_bundle` (async): the returned list of raw signed
transactions. -/
def sign_bundle_async (env : Env) (specs : List BundleTx) :
    Except Err (List SignedTx) :=
  (signBundleAsyncAux env (fun _ => none) specs).map (fun r => r.1)

/-- `SECONDS_PER_BLOCK` from both modules. -/
def SECONDS_PER_BLOCK : Nat := 12

/-- `Flashbots.extrapolate_timestamp`: `block_delta = block_tag -
latest_block_number` (Python int subtraction; with natural-number inputs,
`block_delta < 0` is exactly `block_tag < latest_block_number`), raise on
a negative delta, else the head timestamp plus 12 seconds per block. -/
def extrapolate_timestamp (getBlockTimestamp : Nat → Nat)
    (block_tag latest_block_number : Nat) : Except Err Nat :=
  if block_tag < latest_block_number then .error .negativeExtrapolation
  else .ok (getBlockTimestamp latest_block_number
            + (block_tag - latest_block_number) * SECONDS_PER_BLOCK)

/-- Byte strings of the bundle-response model. -/
abbrev Bytes := List Nat

/-- `FlashbotsBundleResponse.bundle_hash`: keccak of
`reduce(lambda a, b: a + b, [tx["hash"] for tx in self.bundle])`, where
each `tx["hash"]` is `keccak` of the signed bytes.  Python's `reduce`
without an initial value raises on the empty list, hence `Option`. -/
def bundle_hash (keccak : Bytes → Bytes) (txs : List Bytes) : Option Bytes :=
  match txs.map keccak with
  | [] => none
  | h :: hs => some (keccak (hs.foldl (fun a b => a ++ b) h))

/-- `FlashbotsPrivateTransactionResponse.wait` (sync and async share the
logic): at each poll `t`, if the transaction lookup succeeds return
`true` (mined); else if the observed block height strictly exceeds
`max_block_number` return `false` (expired); else sleep and poll again.
The unbounded Python loop is modelled with fuel (`none` = still pending
after `fuel` polls). -/
def waitFuel (found : Nat → Bool) (height : Nat → Nat) (maxBlock : Nat) :
    Nat → Nat → Option Bool
  | _, 0 => none
  | t, fuel + 1 =>
      if found t then some true
      else if maxBlock < height t then some false
      else waitFuel found height maxBlock (t + 1) fuel

/-- `FlashbotsPrivateTransactionResponse.receipt`: if `wait()` returns
`true` fetch the receipt, else return `None`.  The outer `Option` is the
fuel bound; the inner `Option Nat` is the Python return value. -/
def receiptFuel (found : Nat → Bool) (height : Nat → Nat) (maxBlock : Nat)
    (fetchedReceipt : Nat) (t fuel : Nat) : Option (Option Nat) :=
  (waitFuel found height maxBlock t fuel).map
    (fun mined => if mined then some fetchedReceipt else none)

/-- A spec matching one of the three recognized shapes. -/
def recognized : BundleTx → Bool
  | .unknownTx _ => false
  | _ => true

/-- Correspondence between an input spec and the signed transaction
produced from it: a raw spec passes its bytes through unchanged; a signer
spec yields bytes signed by that signer over a dict with the same
untouched payload; a dict spec yields the re-encoding of its own fields
under its own `(v, r, s)`. -/
def matchesSpec : BundleTx → SignedTx → Bool
  | .rawTx a n b, .raw a2 n2 b2 =>
      decide (a = a2) && decide (n = n2) && decide (b = b2)
  | .signerTx s d0, .signed a2 d2 =>
      decide (s.address = a2) && decide (d2.rest = d0.rest)
        && decide (d2.fromAddr = some s.address)
  | .dictTx d, .encoded f v r s =>
      decide (v = d.v) && decide (r = d.r) && decide (s = d.s)
        && decide (f.nonce = d.nonce) && decide (f.data = d.input)
        && decide (f.value = d.value) && decide (f.gas = d.gas)
  | _, _ => false

/-- The nonce carried by a signed transaction (for signed dicts, the
filled `"nonce"` entry). -/
def signedNonce : SignedTx → Option Nat
  | .raw _ n _ => some n
  | .signed _ d => d.nonce
  | .encoded f _ _ _ => some f.nonce

/-- Whether processing this spec can write the ledger entry of address
`a`: only the raw branch (at the decoded sender) and the signer branch
(at the signer's address) write the ledger; the dict branch and skipped
specs never do. -/
def touchesNonceOf (a : Address) : BundleTx → Bool
  | .rawTx sender _ _ => sender == a
  | .signerTx s _ => s.address == a
  | .dictTx _ => false
  | .unknownTx _ => false

/-- The nonce the signer branch uses when the dict has none:
`nonces.get(addr, w3.eth.get_transaction_count(addr))`. -/
def nonceFor (env : Env) (st : Ledger) (a : Address) : Nat :=
  (st a).getD (env.getTransactionCount a)

/-- Relation between a spec before and after a `sign_bundle` call:
raw, dict and unrecognized specs are untouched; a signer spec keeps its
signer and payload, gets `"from"` set to the signer's address, and has
`nonce` and `gas` present afterwards, preserved when they were present
before. -/
def mutOk : BundleTx → BundleTx → Bool
  | .rawTx a n b, .rawTx a2 n2 b2 =>
      decide (a = a2) && decide (n = n2) && decide (b = b2)
  | .dictTx d, .dictTx d2 => decide (d = d2)
  | .unknownTx u, .unknownTx u2 => decide (u = u2)
  | .signerTx s d, .signerTx s2 d2 =>
      decide (s = s2) && decide (d2.fromAddr = some s.address)
        && decide (d2.rest = d.rest)
        && d2.nonce.isSome && d2.gas.isSome
        && (match d.nonce with | some n => decide (d2.nonce = some n) | none => true)
        && (match d.gas with | some g => decide (d2.gas = some g) | none => true)
  | _, _ => false

/-- A concrete environment for witnesses: every account has 10 prior
transactions, gas estimates are 21000, and the hash of any signed bytes
is 0. -/
def env0 : Env :=
  { getTransactionCount := fun _ => 10,
    estimateGas := fun _ => 21000,
    keccak := fun _ => 0 }

/-- A concrete dict spec whose declared hash (0) matches `env0.keccak`. -/
def dict0 : DictTx :=
  { nonce := 5, input := 0, value := 0, gas := 30000, v := 27, r := 1, s := 1,
    maxFeePerGas := none, maxPriorityFeePerGas := none, gasPrice := some 7,
    accessList := none, chainId := none, toAddr := some 3, fromAddr := some 7,
    hash := 0 }

/-- A concrete nonce-less signer dict. -/
def txd0 : TxDict :=
  { nonce := none, gas := some 21000, fromAddr := none, rest := 4 }

/-- The field set `buildDictFields` reconstructs from `dict0`. -/
def encf0 : EncFields :=
  { nonce := 5, data := 0, value := 0, gas := 30000,
    maxFeePerGas := none, maxPriorityFeePerGas := none, gasPrice := some 7,
    accessList := none, chainId := none, toAddr := some 3 }

/-- A concrete environment whose hash (1) never matches `dict0.hash` (0). -/
def env1 : Env :=
  { getTransactionCount := fun _ => 10,
    estimateGas := fun _ => 21000,
    keccak := fun _ => 1 }

/-- A concrete injective hash with constant output length 32, for the
bundle-hash witness. -/
def kc0 : Bytes → Bytes :=
  fun l => Encodable.encode l :: List.replicate 31 0

/-! ## Helper lemmas about the signer branch -/

theorem signerStep_spec (env : Env) (st : Ledger) (s : Signer) (d : TxDict) :
    (signerStep env st s d).1 = .signed s.address (signerStep env st s d).2.2
    ∧ ((signerStep env st s d).2.2).rest = d.rest
    ∧ ((signerStep env st s d).2.2).fromAddr = some s.address
    ∧ ((signerStep env st s d).2.2).nonce.isSome = true
    ∧ ((signerStep env st s d).2.2).gas.isSome = true
    ∧ (∀ n, d.nonce = some n →
        (signerStep env st s d).2.2.nonce = some n
          ∧ (signerStep env st s d).2.1 = updateLedger st s.address (n + 1))
    ∧ (d.nonce = none →
        (signerStep env st s d).2.2.nonce = some (nonceFor env st s.address)
          ∧ (signerStep env st s d).2.1
              = updateLedger st s.address (nonceFor env st s.address + 1))
    ∧ (∀ g, d.gas = some g → (signerStep env st s d).2.2.gas = some g)
    ∧ (∀ x, x ≠ s.address → (signerStep env st s d).2.1 x = st x) := by
  cases hn : d.nonce <;> cases hg : d.gas <;>
    simp [signerStep, nonceFor, updateLedger, hn, hg] <;>
    intro x hx <;> simp [hx]

theorem signerStep_ledger (env : Env) (st : Ledger) (s : Signer) (d : TxDict) :
    ∃ m, (signerStep env st s d).2.1 = updateLedger st s.address m := by
  cases hn : d.nonce <;> simp [signerStep, hn]

theorem buildDictFields_fields (d : DictTx) (f : EncFields)
    (h : buildDictFields d = .ok f) :
    f.nonce = d.nonce ∧ f.data = d.input ∧ f.value = d.value ∧ f.gas = d.gas := by
  unfold buildDictFields at h
  by_cases hm : d.maxFeePerGas.isSome || d.maxPriorityFeePerGas.isSome <;>
    simp [hm] at h
  · cases hmf : d.maxFeePerGas <;> cases hmp : d.maxPriorityFeePerGas <;>
      simp [hmf, hmp] at h
    simp [← h]
  · cases hgp : d.gasPrice <;> simp [hgp] at h
    simp [← h]

theorem signOne_matches (env : Env) (st : Ledger) (t : BundleTx)
    (o? : Option SignedTx) (st' : Ledger) (t' : BundleTx)
    (hrec : recognized t = true) (h : signOne env st t = .ok (o?, st', t')) :
    ∃ o, o? = some o ∧ matchesSpec t o = true := by
  cases t with
  | rawTx a n b =>
      simp [signOne] at h
      exact ⟨.raw a n b, h.1.symm, by simp [matchesSpec]⟩
  | signerTx s d =>
      simp [signOne] at h
      obtain ⟨hs, -, -⟩ := h
      refine ⟨(signerStep env st s d).1, hs.symm, ?_⟩
      obtain ⟨h1, h2, h3, -⟩ := signerStep_spec env st s d
      rw [h1]
      simp [matchesSpec, h2, h3]
  | dictTx d =>
      rw [signOne] at h
      cases hb : buildDictFields d with
      | error e => simp [hb] at h
      | ok f =>
          simp [hb] at h
          by_cases hk : env.keccak (.encoded f d.v d.r d.s) = d.hash <;>
            simp [hk] at h
          refine ⟨.encoded f d.v d.r d.s, h.1.symm, ?_⟩
          obtain ⟨e1, e2, e3, e4⟩ := buildDictFields_fields d f hb
          simp [matchesSpec, e1, e2, e3, e4]
  | unknownTx u => simp [recognized] at hrec

theorem signOne_mutOk (env : Env) (st : Ledger) (t : BundleTx)
    (o? : Option SignedTx) (st' : Ledger) (t' : BundleTx)
    (h : signOne env st t = .ok (o?, st', t')) : mutOk t t' = true := by
  cases t with
  | rawTx a n b =>
      simp [signOne] at h
      simp [← h.2.2, mutOk]
  | signerTx s d =>
      simp [signOne] at h
      obtain ⟨-, -, ht⟩ := h
      obtain ⟨-, h2, h3, h4, h5, h6, -, h8, -⟩ := signerStep_spec env st s d
      rw [← ht]
      simp only [mutOk]
      simp [h2, h3, h4, h5]
      constructor
      · cases hn : d.nonce with
        | none => simp
        | some n => simp [(h6 n hn).1]
      · cases hg : d.gas with
        | none => simp
        | some g => simp [h8 g hg]
  | dictTx d =>
      rw [signOne] at h
      cases hb : buildDictFields d with
      | error e => simp [hb] at h
      | ok f =>
          simp [hb] at h
          by_cases hk : env.keccak (.encoded f d.v d.r d.s) = d.hash <;>
            simp [hk] at h
          simp [← h.2.2, mutOk]
  | unknownTx u =>
      simp [signOne] at h
      simp [← h.2.2, mutOk]

theorem signOne_ledger_untouched (env : Env) (st : Ledger) (t : BundleTx)
    (a : Address) (o? : Option SignedTx) (st' : Ledger) (t' : BundleTx)
    (ht : touchesNonceOf a t = false) (h : signOne env st t = .ok (o?, st', t')) :
    st' a = st a := by
  cases t with
  | rawTx sender n b =>
      simp [touchesNonceOf] at ht
      simp [signOne] at h
      have hne : a ≠ sender := fun hh => ht hh.symm
      simp [← h.2.1, updateLedger, hne]
  | signerTx s d =>
      simp [touchesNonceOf] at ht
      simp [signOne] at h
      obtain ⟨-, -, -, -, -, -, -, -, h9⟩ := signerStep_spec env st s d
      rw [← h.2.1]
      exact h9 a (fun hh => ht hh.symm)
  | dictTx d =>
      rw [signOne] at h
      cases hb : buildDictFields d with
      | error e => simp [hb] at h
      | ok f =>
          simp [hb] at h
          by_cases hk : env.keccak (.encoded f d.v d.r d.s) = d.hash <;>
            simp [hk] at h
          simp [← h.2.1]
  | unknownTx u =>
      simp [signOne] at h
      simp [← h.2.1]

theorem signOneAsync_matches (env : Env) (st : Ledger) (t : BundleTx)
    (o : SignedTx) (st' : Ledger) (t' : BundleTx)
    (h : signOneAsync env st t = .ok (o, st', t')) :
    matchesSpec t o = true := by
  cases t with
  | rawTx a n b =>
      simp [signOneAsync] at h
      simp [← h.1, matchesSpec]
  | signerTx s d =>
      simp [signOneAsync] at h
      obtain ⟨h1, h2, h3, -⟩ := signerStep_spec env st s d
      rw [← h.1, h1]
      simp [matchesSpec, h2, h3]
  | dictTx d => simp [signOneAsync] at h
  | unknownTx u => simp [signOneAsync] at h

theorem signBundleAux_append (env : Env) (st : Ledger) (xs ys : List BundleTx) :
    signBundleAux env st (xs ++ ys) =
      match signBundleAux env st xs with
      | .error e => .error e
      | .ok (outs, st', xs') =>
          match signBundleAux env st' ys with
          | .error e => .error e
          | .ok (outs2, st'', ys') => .ok (outs ++ outs2, st'', xs' ++ ys') := by
  induction xs generalizing st with
  | nil =>
      simp only [List.nil_append, signBundleAux]
      cases h : signBundleAux env st ys with
      | error e => rfl
      | ok r => rfl
  | cons t ts ih =>
      simp only [List.cons_append, signBundleAux]
      cases h1 : signOne env st t with
      | error e => rfl
      | ok r =>
          obtain ⟨o?, st2, t'⟩ := r
          dsimp only
          simp only [List.append_eq]
          rw [ih st2]
          cases h2 : signBundleAux env st2 ts with
          | error e => rfl
          | ok r2 =>
              obtain ⟨outs, st3, ts'⟩ := r2
              dsimp only
              cases h3 : signBundleAux env st3 ys with
              | error e => rfl
              | ok r3 =>
                  obtain ⟨outs2, st4, ys'⟩ := r3
                  cases o? <;> rfl

theorem signBundleAux_matches (env : Env) :
    ∀ (specs : List BundleTx) (st : Ledger) (outs : List SignedTx)
      (st' : Ledger) (specs' : List BundleTx),
      (∀ t ∈ specs, recognized t = true) →
      signBundleAux env st specs = .ok (outs, st', specs') →
      List.Forall₂ (fun t o => matchesSpec t o = true) specs outs := by
  intro specs
  induction specs with
  | nil =>
      intro st outs st' specs' _ h
      simp [signBundleAux] at h
      simp [← h.1]
  | cons t ts ih =>
      intro st outs st' specs' hrec h
      rw [signBundleAux] at h
      cases h1 : signOne env st t with
      | error e => rw [h1] at h; exact absurd h (by simp)
      | ok r =>
          obtain ⟨o?, st2, t'⟩ := r
          rw [h1] at h
          dsimp only at h
          cases h2 : signBundleAux env st2 ts with
          | error e => rw [h2] at h; exact absurd h (by simp)
          | ok r2 =>
              obtain ⟨outs0, st3, ts'⟩ := r2
              rw [h2] at h
              dsimp only at h
              obtain ⟨o, ho, hm⟩ :=
                signOne_matches env st t o? st2 t' (hrec t (by simp)) h1
              subst ho
              dsimp only at h
              have houts : outs = o :: outs0 := by
                have := h
                simp at this
                exact this.1.symm
              subst houts
              exact List.Forall₂.cons hm
                (ih st2 outs0 st3 ts' (fun x hx => hrec x (by simp [hx])) h2)

theorem signBundleAsyncAux_matches (env : Env) :
    ∀ (specs : List BundleTx) (st : Ledger) (outs : List SignedTx)
      (st' : Ledger) (specs' : List BundleTx),
      signBundleAsyncAux env st specs = .ok (outs, st', specs') →
      List.Forall₂ (fun t o => matchesSpec t o = true) specs outs := by
  intro specs
  induction specs with
  | nil =>
      intro st outs st' specs' h
      simp [signBundleAsyncAux] at h
      simp [← h.1]
  | cons t ts ih =>
      intro st outs st' specs' h
      rw [signBundleAsyncAux] at h
      cases h1 : signOneAsync env st t with
      | error e => rw [h1] at h; exact absurd h (by simp)
      | ok r =>
          obtain ⟨o, st2, t'⟩ := r
          rw [h1] at h
          dsimp only at h
          cases h2 : signBundleAsyncAux env st2 ts with
          | error e => rw [h2] at h; exact absurd h (by simp)
          | ok r2 =>
              obtain ⟨outs0, st3, ts'⟩ := r2
              rw [h2] at h
              dsimp only at h
              have houts : outs = o :: outs0 := by
                have := h
                simp at this
                exact this.1.symm
              subst houts
              exact List.Forall₂.cons
                (signOneAsync_matches env st t o st2 t' h1)
                (ih st2 outs0 st3 ts' h2)

theorem signBundleAux_mutOk (env : Env) :
    ∀ (specs : List BundleTx) (st : Ledger) (outs : List SignedTx)
      (st' : Ledger) (specs' : List BundleTx),
      signBundleAux env st specs = .ok (outs, st', specs') →
      List.Forall₂ (fun t t2 => mutOk t t2 = true) specs specs' := by
  intro specs
  induction specs with
  | nil =>
      intro st outs st' specs' h
      simp [signBundleAux] at h
      rw [h.2.2]
      exact List.Forall₂.nil
  | cons t ts ih =>
      intro st outs st' specs' h
      rw [signBundleAux] at h
      cases h1 : signOne env st t with
      | error e => rw [h1] at h; exact absurd h (by simp)
      | ok r =>
          obtain ⟨o?, st2, t'⟩ := r
          rw [h1] at h
          dsimp only at h
          cases h2 : signBundleAux env st2 ts with
          | error e => rw [h2] at h; exact absurd h (by simp)
          | ok r2 =>
              obtain ⟨outs0, st3, ts'⟩ := r2
              rw [h2] at h
              dsimp only at h
              have hsp : specs' = t' :: ts' := by
                have := h
                simp at this
                exact this.2.2.symm
              subst hsp
              exact List.Forall₂.cons (signOne_mutOk env st t o? st2 t' h1)
                (ih st2 outs0 st3 ts' h2)

theorem signBundleAux_ledger_untouched (env : Env) (a : Address) :
    ∀ (specs : List BundleTx) (st : Ledger) (outs : List SignedTx)
      (st' : Ledger) (specs' : List BundleTx),
      (∀ t ∈ specs, touchesNonceOf a t = false) →
      signBundleAux env st specs = .ok (outs, st', specs') →
      st' a = st a := by
  intro specs
  induction specs with
  | nil =>
      intro st outs st' specs' _ h
      simp [signBundleAux] at h
      simp [← h.2.1]
  | cons t ts ih =>
      intro st outs st' specs' htouch h
      rw [signBundleAux] at h
      cases h1 : signOne env st t with
      | error e => rw [h1] at h; exact absurd h (by simp)
      | ok r =>
          obtain ⟨o?, st2, t'⟩ := r
          rw [h1] at h
          dsimp only at h
          cases h2 : signBundleAux env st2 ts with
          | error e => rw [h2] at h; exact absurd h (by simp)
          | ok r2 =>
              obtain ⟨outs0, st3, ts'⟩ := r2
              rw [h2] at h
              dsimp only at h
              have hst : st' = st3 := by
                have := h
                simp at this
                exact this.2.1.symm
              subst hst
              rw [ih st2 outs0 st' ts' (fun x hx => htouch x (by simp [hx])) h2]
              exact signOne_ledger_untouched env st t a o? st2 t'
                (htouch t (by simp)) h1

theorem signBundleAux_run_nonces (env : Env) (s : Signer) :
    ∀ (ds : List TxDict) (st : Ledger),
      (∀ d ∈ ds, d.nonce = none) →
      ∃ outs st' ds',
        signBundleAux env st (ds.map (BundleTx.signerTx s)) = .ok (outs, st', ds')
          ∧ outs.length = ds.length
          ∧ ∀ i (hi : i < outs.length),
              signedNonce (outs.get ⟨i, hi⟩) = some (nonceFor env st s.address + i) := by
  intro ds
  induction ds with
  | nil =>
      intro st _
      exact ⟨[], st, [], rfl, rfl, fun i hi => absurd hi (by simp)⟩
  | cons d ds ih =>
      intro st hn
      have hd : d.nonce = none := hn d (by simp)
      obtain ⟨hfst, -, -, -, -, -, h7, -, -⟩ := signerStep_spec env st s d
      obtain ⟨hnonce, hledger⟩ := h7 hd
      obtain ⟨outs0, st1, ds', haux, hlen, hns⟩ :=
        ih ((signerStep env st s d).2.1) (fun x hx => hn x (by simp [hx]))
      have hstep : signOne env st (.signerTx s d) =
          .ok (some (signerStep env st s d).1, (signerStep env st s d).2.1,
               .signerTx s (signerStep env st s d).2.2) := rfl
      refine ⟨(signerStep env st s d).1 :: outs0, st1,
              .signerTx s (signerStep env st s d).2.2 :: ds', ?_, by simp [hlen], ?_⟩
      · rw [List.map_cons, signBundleAux, hstep]
        dsimp only
        rw [haux]
      · intro i hi
        have hcur : nonceFor env ((signerStep env st s d).2.1) s.address
            = nonceFor env st s.address + 1 := by
          rw [hledger]
          simp [nonceFor, updateLedger]
        cases i with
        | zero =>
            simp only [List.get]
            rw [hfst]
            simp [signedNonce, hnonce]
        | succ j =>
            simp only [List.get]
            have hj : j < outs0.length := by
              simpa using Nat.lt_of_succ_lt_succ hi
            have := hns j hj
            rw [hcur] at this
            rw [show outs0.get ⟨j, hj⟩ = outs0.get ⟨j, hj⟩ from rfl] at this
            calc signedNonce (outs0.get ⟨j, hj⟩)
                = some (nonceFor env st s.address + 1 + j) := this
              _ = some (nonceFor env st s.address + (j + 1)) := by
                  congr 1
                  omega

theorem sign_bundle_ok_elim (env : Env) (specs : List BundleTx)
    (outs : List SignedTx) (h : sign_bundle env specs = .ok outs) :
    ∃ st' specs',
      signBundleAux env (fun _ => none) specs = .ok (outs, st', specs') := by
  unfold sign_bundle at h
  cases haux : signBundleAux env (fun _ => none) specs with
  | error e => rw [haux] at h; exact absurd h (by simp [Except.map])
  | ok r =>
      obtain ⟨o, st', sp⟩ := r
      rw [haux] at h
      simp [Except.map] at h
      exact ⟨st', sp, by rw [h]⟩

theorem sign_bundle_async_ok_elim (env : Env) (specs : List BundleTx)
    (outs : List SignedTx) (h : sign_bundle_async env specs = .ok outs) :
    ∃ st' specs',
      signBundleAsyncAux env (fun _ => none) specs = .ok (outs, st', specs') := by
  unfold sign_bundle_async at h
  cases haux : signBundleAsyncAux env (fun _ => none) specs with
  | error e => rw [haux] at h; exact absurd h (by simp [Except.map])
  | ok r =>
      obtain ⟨o, st', sp⟩ := r
      rw [haux] at h
      simp [Except.map] at h
      exact ⟨st', sp, by rw [h]⟩

theorem sign_bundle_mutated_ok_elim (env : Env) (specs : List BundleTx)
    (specs' : List BundleTx) (h : sign_bundle_mutated env specs = .ok specs') :
    ∃ outs st', signBundleAux env (fun _ => none) specs = .ok (outs, st', specs') := by
  unfold sign_bundle_mutated at h
  cases haux : signBundleAux env (fun _ => none) specs with
  | error e => rw [haux] at h; exact absurd h (by simp [Except.map])
  | ok r =>
      obtain ⟨o, st', sp⟩ := r
      rw [haux] at h
      simp [Except.map] at h
      exact ⟨o, st', by rw [h]⟩

/-! ## Claim theorems -/

/-- C1: for every bundle whose specs all match one of the three
recognized variants, `sign_bundle` is order-preserving in a single pass:
the output has one signed transaction per input spec and the i-th output
is the one produced from the i-th input (so nothing is reordered, and two
identical input specs yield two output entries).  The same holds for the
async `sign_bundle` whenever it returns a list. -/
theorem sign_bundle_order_preserving (env : Env) (specs : List BundleTx)
    (outs : List SignedTx)
    (hrec : ∀ t ∈ specs, recognized t = true)
    (h : sign_bundle env specs = .ok outs) :
    (outs.length = specs.length
      ∧ ∀ (i : Nat) (h1 : i < specs.length) (h2 : i < outs.length),
          matchesSpec (specs.get ⟨i, h1⟩) (outs.get ⟨i, h2⟩) = true)
    ∧ ∀ outs2 : List SignedTx, sign_bundle_async env specs = .ok outs2 →
        outs2.length = specs.length
          ∧ ∀ (i : Nat) (h1 : i < specs.length) (h2 : i < outs2.length),
              matchesSpec (specs.get ⟨i, h1⟩) (outs2.get ⟨i, h2⟩) = true := by
  constructor
  · obtain ⟨st', specs', haux⟩ := sign_bundle_ok_elim env specs outs h
    have hf := signBundleAux_matches env specs (fun _ => none) outs st' specs' hrec haux
    obtain ⟨hlen, hget⟩ := List.forall₂_iff_get.1 hf
    exact ⟨hlen.symm, hget⟩
  · intro outs2 h2
    obtain ⟨st', specs', haux⟩ := sign_bundle_async_ok_elim env specs outs2 h2
    have hf := signBundleAsyncAux_matches env specs (fun _ => none) outs2 st' specs' haux
    obtain ⟨hlen, hget⟩ := List.forall₂_iff_get.1 hf
    exact ⟨hlen.symm, hget⟩

/-- Witness for C1 at a concrete bundle containing the same raw spec
twice: both copies appear in the output, in order. -/
theorem sign_bundle_order_preserving_witness :
    (∀ t ∈ [BundleTx.rawTx 1 5 0, BundleTx.rawTx 1 5 0], recognized t = true)
    ∧ sign_bundle env0 [BundleTx.rawTx 1 5 0, BundleTx.rawTx 1 5 0]
        = .ok [SignedTx.raw 1 5 0, SignedTx.raw 1 5 0]
    ∧ (([SignedTx.raw 1 5 0, SignedTx.raw 1 5 0].length
          = [BundleTx.rawTx 1 5 0, BundleTx.rawTx 1 5 0].length
        ∧ ∀ (i : Nat) (h1 : i < [BundleTx.rawTx 1 5 0, BundleTx.rawTx 1 5 0].length)
            (h2 : i < [SignedTx.raw 1 5 0, SignedTx.raw 1 5 0].length),
            matchesSpec ([BundleTx.rawTx 1 5 0, BundleTx.rawTx 1 5 0].get ⟨i, h1⟩)
              ([SignedTx.raw 1 5 0, SignedTx.raw 1 5 0].get ⟨i, h2⟩) = true)
      ∧ ∀ outs2 : List SignedTx,
          sign_bundle_async env0 [BundleTx.rawTx 1 5 0, BundleTx.rawTx 1 5 0] = .ok outs2 →
          outs2.length = [BundleTx.rawTx 1 5 0, BundleTx.rawTx 1 5 0].length
            ∧ ∀ (i : Nat) (h1 : i < [BundleTx.rawTx 1 5 0, BundleTx.rawTx 1 5 0].length)
                (h2 : i < outs2.length),
                matchesSpec ([BundleTx.rawTx 1 5 0, BundleTx.rawTx 1 5 0].get ⟨i, h1⟩)
                  (outs2.get ⟨i, h2⟩) = true) :=
  ⟨by decide, rfl,
   sign_bundle_order_preserving env0 [BundleTx.rawTx 1 5 0, BundleTx.rawTx 1 5 0]
     [SignedTx.raw 1 5 0, SignedTx.raw 1 5 0] (by decide) rfl⟩

/-- C2 (code-bug exhibit): the sync `sign_bundle` silently skips a spec
matching none of the three shapes -- it returns a list with no entry for
it and raises nothing -- while the async `sign_bundle` raises
`ValueError("Unsupported transaction type in bundle")` on the same input,
as the spec requires. -/
theorem sign_bundle_unsupported_divergence :
    sign_bundle env0 [BundleTx.unknownTx 0] = .ok []
    ∧ sign_bundle env0 [BundleTx.rawTx 1 5 0, BundleTx.unknownTx 0]
        = .ok [SignedTx.raw 1 5 0]
    ∧ sign_bundle_async env0 [BundleTx.unknownTx 0] = .error .unsupportedTx :=
  ⟨rfl, rfl, rfl⟩

/-- C6: `extrapolate_timestamp b h` raises when `b < h`, returns the head
timestamp when `b = h`, the head timestamp plus 12 when `b = h + 1`, and
in general the head timestamp plus `(b - h) * 12` when `h ≤ b`. -/
theorem extrapolate_timestamp_spec (ts : Nat → Nat) (b h : Nat) :
    (b < h → extrapolate_timestamp ts b h = .error .negativeExtrapolation)
    ∧ (b = h → extrapolate_timestamp ts b h = .ok (ts h))
    ∧ (b = h + 1 → extrapolate_timestamp ts b h = .ok (ts h + 12))
    ∧ (h ≤ b → extrapolate_timestamp ts b h = .ok (ts h + (b - h) * 12)) := by
  refine ⟨?_, ?_, ?_, ?_⟩ <;> intro hb
  · simp [extrapolate_timestamp, hb]
  · subst hb
    simp [extrapolate_timestamp, SECONDS_PER_BLOCK]
  · subst hb
    simp [extrapolate_timestamp, SECONDS_PER_BLOCK]
  · simp [extrapolate_timestamp, Nat.not_lt.2 hb, SECONDS_PER_BLOCK]

/-- Witness for C6 with head block 100 at timestamp 1000. -/
theorem extrapolate_timestamp_spec_witness :
    extrapolate_timestamp (fun _ => 1000) 99 100 = .error .negativeExtrapolation
    ∧ extrapolate_timestamp (fun _ => 1000) 100 100 = .ok 1000
    ∧ extrapolate_timestamp (fun _ => 1000) 101 100 = .ok 1012
    ∧ extrapolate_timestamp (fun _ => 1000) 105 100 = .ok 1060 :=
  ⟨(extrapolate_timestamp_spec (fun _ => 1000) 99 100).1 (by decide),
   (extrapolate_timestamp_spec (fun _ => 1000) 100 100).2.1 rfl,
   (extrapolate_timestamp_spec (fun _ => 1000) 101 100).2.2.1 rfl,
   (extrapolate_timestamp_spec (fun _ => 1000) 105 100).2.2.2 (by decide)⟩

/-- C10: a successful sync `sign_bundle` call leaves the caller-supplied
spec list with the same length and order; every signer-variant entry has
its dict mutated in place (`"from"` set to the signer's address, `nonce`
and `gas` present afterwards and preserved when already present, payload
untouched), and every other entry is unchanged. -/
theorem sign_bundle_mutates_signer_dicts (env : Env) (specs specs' : List BundleTx)
    (h : sign_bundle_mutated env specs = .ok specs') :
    specs'.length = specs.length
    ∧ ∀ (i : Nat) (h1 : i < specs.length) (h2 : i < specs'.length),
        mutOk (specs.get ⟨i, h1⟩) (specs'.get ⟨i, h2⟩) = true := by
  obtain ⟨outs, st', haux⟩ := sign_bundle_mutated_ok_elim env specs specs' h
  have hf := signBundleAux_mutOk env specs (fun _ => none) outs st' specs' haux
  obtain ⟨hlen, hget⟩ := List.forall₂_iff_get.1 hf
  exact ⟨hlen.symm, hget⟩

/-- Witness for C10: a nonce-less, gas-less signer entry gets `from`,
`nonce` (chain count 10) and `gas` (estimate 21000) filled in place; the
raw entry is untouched. -/
theorem sign_bundle_mutates_signer_dicts_witness :
    sign_bundle_mutated env0
        [BundleTx.signerTx ⟨1⟩ { nonce := none, gas := none, fromAddr := none, rest := 9 },
         BundleTx.rawTx 2 0 0]
      = .ok [BundleTx.signerTx ⟨1⟩
               { nonce := some 10, gas := some 21000, fromAddr := some 1, rest := 9 },
             BundleTx.rawTx 2 0 0]
    ∧ ([BundleTx.signerTx ⟨1⟩
          { nonce := some 10, gas := some 21000, fromAddr := some 1, rest := 9 },
        BundleTx.rawTx 2 0 0].length
        = [BundleTx.signerTx ⟨1⟩ { nonce := none, gas := none, fromAddr := none, rest := 9 },
           BundleTx.rawTx 2 0 0].length
      ∧ ∀ (i : Nat)
          (h1 : i < [BundleTx.signerTx ⟨1⟩
                       { nonce := none, gas := none, fromAddr := none, rest := 9 },
                     BundleTx.rawTx 2 0 0].length)
          (h2 : i < [BundleTx.signerTx ⟨1⟩
                       { nonce := some 10, gas := some 21000, fromAddr := some 1, rest := 9 },
                     BundleTx.rawTx 2 0 0].length),
          mutOk ([BundleTx.signerTx ⟨1⟩
                    { nonce := none, gas := none, fromAddr := none, rest := 9 },
                  BundleTx.rawTx 2 0 0].get ⟨i, h1⟩)
            ([BundleTx.signerTx ⟨1⟩
                { nonce := some 10, gas := some 21000, fromAddr := some 1, rest := 9 },
              BundleTx.rawTx 2 0 0].get ⟨i, h2⟩) = true) :=
  ⟨rfl,
   sign_bundle_mutates_signer_dicts env0
     [BundleTx.signerTx ⟨1⟩ { nonce := none, gas := none, fromAddr := none, rest := 9 },
      BundleTx.rawTx 2 0 0]
     [BundleTx.signerTx ⟨1⟩
        { nonce := some 10, gas := some 21000, fromAddr := some 1, rest := 9 },
      BundleTx.rawTx 2 0 0] rfl⟩

/-- C9: a signer entry carrying an explicit nonce `n` still advances the
ledger for its sender to `n + 1` (the code runs
`nonces[signer.address] = tx_dict["nonce"] + 1` unconditionally), so a
subsequent nonce-less signer entry for the same sender is signed with
nonce `n + 1` rather than the chain-queried transaction count. -/
theorem signer_explicit_nonce_advances_ledger (env : Env) (st : Ledger)
    (s : Signer) (d1 d2 : TxDict) (n : Nat)
    (h1 : d1.nonce = some n) (h2 : d2.nonce = none) :
    (∀ r, signOne env st (.signerTx s d1) = .ok r → r.2.1 s.address = some (n + 1))
    ∧ ∃ outs, sign_bundle env [.signerTx s d1, .signerTx s d2] = .ok outs
        ∧ outs.map signedNonce = [some n, some (n + 1)] := by
  constructor
  · intro r hr
    have hstep : signOne env st (.signerTx s d1) =
        .ok (some (signerStep env st s d1).1, (signerStep env st s d1).2.1,
             .signerTx s (signerStep env st s d1).2.2) := rfl
    rw [hstep] at hr
    obtain ⟨-, -, -, -, -, h6, -, -, -⟩ := signerStep_spec env st s d1
    obtain ⟨-, hled⟩ := h6 n h1
    cases hr
    rw [hled]
    simp [updateLedger]
  · refine ⟨[(signerStep env (fun _ => none) s d1).1,
             (signerStep env ((signerStep env (fun _ => none) s d1).2.1) s d2).1],
            rfl, ?_⟩
    obtain ⟨hfstA, -, -, -, -, h6A, -, -, -⟩ :=
      signerStep_spec env (fun _ => none) s d1
    obtain ⟨hnonceA, hledA⟩ := h6A n h1
    obtain ⟨hfstB, -, -, -, -, -, h7B, -, -⟩ :=
      signerStep_spec env ((signerStep env (fun _ => none) s d1).2.1) s d2
    obtain ⟨hnonceB, -⟩ := h7B h2
    have hcur : nonceFor env ((signerStep env (fun _ => none) s d1).2.1) s.address
        = n + 1 := by
      rw [hledA]
      simp [nonceFor, updateLedger]
    rw [List.map_cons, List.map_cons, List.map_nil, hfstA, hfstB]
    simp [signedNonce, hnonceA, hnonceB, hcur]

/-- Witness for C9: explicit nonce 8 for sender 3, then a nonce-less
entry for sender 3 (chain count would be 10); the second is signed with
nonce 9. -/
theorem signer_explicit_nonce_advances_ledger_witness :
    (∀ r, signOne env0 (fun _ => none)
        (.signerTx ⟨3⟩ { nonce := some 8, gas := some 21000, fromAddr := none, rest := 0 })
        = .ok r → r.2.1 (3 : Address) = some (8 + 1))
    ∧ ∃ outs, sign_bundle env0
        [.signerTx ⟨3⟩ { nonce := some 8, gas := some 21000, fromAddr := none, rest := 0 },
         .signerTx ⟨3⟩ txd0] = .ok outs
        ∧ outs.map signedNonce = [some 8, some (8 + 1)] :=
  signer_explicit_nonce_advances_ledger env0 (fun _ => none) ⟨3⟩
    { nonce := some 8, gas := some 21000, fromAddr := none, rest := 0 } txd0 8 rfl rfl

/-- C3 (counterexample): a fully-decoded dict entry for sender 7 with
nonce 5 followed by a nonce-less signer entry for sender 7: the claim
says the second entry is signed with nonce 6 (the dict entry's nonce +
1), but the dict branch never writes the nonce ledger, so the second
entry is signed with the chain-queried transaction count 10. -/
theorem sign_bundle_dict_ledger_cex :
    (sign_bundle env0 [.dictTx dict0, .signerTx ⟨7⟩ txd0]).map (List.map signedNonce)
        = .ok [some 5, some 10]
    ∧ dict0.fromAddr = some 7 ∧ dict0.nonce = 5 ∧ txd0.nonce = none
    ∧ env0.getTransactionCount 7 = 10
    ∧ ¬(10 : Nat) = 5 + 1 :=
  ⟨rfl, rfl, rfl, rfl, rfl, by decide⟩

/-- C3 (amended): the fully-decoded dict branch leaves the nonce ledger
untouched, so a nonce-less signer entry for any sender coming right
after a dict entry (with no earlier entry for that sender) is signed
with the chain-queried transaction count, not the dict entry's nonce
plus one. -/
theorem sign_bundle_dict_leaves_ledger (env : Env) (st : Ledger) (d : DictTx)
    (r : Option SignedTx × Ledger × BundleTx)
    (h : signOne env st (.dictTx d) = .ok r)
    (s : Signer) (dt : TxDict) (hdt : dt.nonce = none)
    (outs : List SignedTx)
    (hb : sign_bundle env [.dictTx d, .signerTx s dt] = .ok outs) :
    r.2.1 = st
    ∧ outs.map signedNonce
        = [some d.nonce, some (env.getTransactionCount s.address)] := by
  rw [signOne] at h
  cases hbd : buildDictFields d with
  | error e => rw [hbd] at h; exact absurd h (by simp)
  | ok f =>
      rw [hbd] at h
      dsimp only at h
      by_cases hk : env.keccak (.encoded f d.v d.r d.s) = d.hash
      · rw [if_pos hk] at h
        cases h
        refine ⟨rfl, ?_⟩
        have hone : signOne env (fun _ => none) (.dictTx d)
            = .ok (some (.encoded f d.v d.r d.s), (fun _ => none), .dictTx d) := by
          rw [signOne, hbd]
          dsimp only
          rw [if_pos hk]
        unfold sign_bundle at hb
        rw [signBundleAux, hone] at hb
        dsimp only at hb
        have hb2 : signBundleAux env (fun _ => none) [BundleTx.signerTx s dt]
            = .ok ([(signerStep env (fun _ => none) s dt).1],
                   (signerStep env (fun _ => none) s dt).2.1,
                   [.signerTx s (signerStep env (fun _ => none) s dt).2.2]) := rfl
        rw [hb2] at hb
        dsimp only at hb
        simp only [Except.map] at hb
        have houts : outs = [SignedTx.encoded f d.v d.r d.s,
                             (signerStep env (fun _ => none) s dt).1] := by
          simpa using hb.symm
        subst houts
        obtain ⟨hfst, -, -, -, -, -, h7, -, -⟩ :=
          signerStep_spec env (fun _ => none) s dt
        obtain ⟨hnonce, -⟩ := h7 hdt
        obtain ⟨e1, -, -, -⟩ := buildDictFields_fields d f hbd
        rw [List.map_cons, List.map_cons, List.map_nil, hfst]
        simp [signedNonce, hnonce, e1, nonceFor]
      · rw [if_neg hk] at h
        exact absurd h (by simp)

/-- Witness for the amended C3: with chain count 10 for sender 7, the
signer entry after the dict entry (nonce 5) is signed with nonce 10. -/
theorem sign_bundle_dict_leaves_ledger_witness :
    (some (SignedTx.encoded encf0 dict0.v dict0.r dict0.s),
      (fun _ => none : Ledger), BundleTx.dictTx dict0).2.1 = (fun _ => none : Ledger)
    ∧ [SignedTx.encoded encf0 dict0.v dict0.r dict0.s,
       SignedTx.signed 7 { nonce := some 10, gas := some 21000,
                           fromAddr := some 7, rest := 4 }].map signedNonce
        = [some dict0.nonce, some (env0.getTransactionCount 7)] :=
  sign_bundle_dict_leaves_ledger env0 (fun _ => none) dict0
    (some (.encoded encf0 dict0.v dict0.r dict0.s), (fun _ => none), .dictTx dict0)
    rfl ⟨7⟩ txd0 rfl
    [SignedTx.encoded encf0 dict0.v dict0.r dict0.s,
     SignedTx.signed 7 { nonce := some 10, gas := some 21000,
                         fromAddr := some 7, rest := 4 }] rfl

/-- C5: for a fully-decoded dict spec, the sync `sign_bundle`
reconstructs the unsigned transaction from the non-signature fields,
re-encodes it with the supplied `(v, r, s)`, and compares the content
hash of the re-encoded bytes with the declared hash: on a match the
re-encoded bytes are appended with the ledger unchanged, on a mismatch
the whole call fails with the hash-mismatch assertion and returns no
output. -/
theorem sign_bundle_dict_hash_check (env : Env) (st : Ledger) (d : DictTx)
    (f : EncFields) (hf : buildDictFields d = .ok f) :
    (env.keccak (.encoded f d.v d.r d.s) = d.hash →
        signOne env st (.dictTx d)
          = .ok (some (.encoded f d.v d.r d.s), st, .dictTx d))
    ∧ (env.keccak (.encoded f d.v d.r d.s) ≠ d.hash →
        signOne env st (.dictTx d) = .error .hashMismatch)
    ∧ (env.keccak (.encoded f d.v d.r d.s) ≠ d.hash →
        ∀ (pre suf : List BundleTx) (r : List SignedTx × Ledger × List BundleTx),
          signBundleAux env (fun _ => none) pre = .ok r →
          sign_bundle env (pre ++ .dictTx d :: suf) = .error .hashMismatch) := by
  have hone : ∀ st2 : Ledger, env.keccak (.encoded f d.v d.r d.s) ≠ d.hash →
      signOne env st2 (.dictTx d) = .error .hashMismatch := by
    intro st2 hk
    rw [signOne, hf]
    dsimp only
    rw [if_neg hk]
  refine ⟨?_, fun hk => hone st hk, ?_⟩
  · intro hk
    rw [signOne, hf]
    dsimp only
    rw [if_pos hk]
  · intro hk pre suf r hpre
    obtain ⟨outs1, st1, pre'⟩ := r
    unfold sign_bundle
    rw [signBundleAux_append env (fun _ => none) pre (.dictTx d :: suf), hpre]
    dsimp only
    rw [signBundleAux, hone st1 hk]
    rfl

/-- Witness for C5: `dict0` matches under `env0` (hash 0) and is
appended re-encoded; under `env1` (hash 1) the same spec fails the whole
call with the hash-mismatch assertion. -/
theorem sign_bundle_dict_hash_check_witness :
    signOne env0 (fun _ => none) (.dictTx dict0)
        = .ok (some (.encoded encf0 dict0.v dict0.r dict0.s),
               (fun _ => none : Ledger), .dictTx dict0)
    ∧ signOne env1 (fun _ => none) (.dictTx dict0) = .error .hashMismatch
    ∧ sign_bundle env1 [.dictTx dict0] = .error .hashMismatch :=
  ⟨(sign_bundle_dict_hash_check env0 (fun _ => none) dict0 encf0 rfl).1 rfl,
   (sign_bundle_dict_hash_check env1 (fun _ => none) dict0 encf0 rfl).2.1 (by decide),
   (sign_bundle_dict_hash_check env1 (fun _ => none) dict0 encf0 rfl).2.2 (by decide)
     [] [] ([], (fun _ => none), []) rfl⟩

/-- C4: over a run of nonce-less signer entries for one sender preceded
only by entries that never write that sender's ledger slot (and followed
by arbitrary entries), the assigned nonces increase by exactly 1 starting
at the sender's chain-queried transaction count; and a raw entry with
decoded nonce 5 followed by a nonce-less signer entry for the same sender
yields nonce 6 for the second entry. -/
theorem sign_bundle_consecutive_nonces (env : Env) (pre suf : List BundleTx)
    (s : Signer) (ds : List TxDict)
    (hpre : ∀ t ∈ pre, touchesNonceOf s.address t = false)
    (hds : ∀ d ∈ ds, d.nonce = none)
    (outs : List SignedTx)
    (h : sign_bundle env (pre ++ ds.map (BundleTx.signerTx s) ++ suf) = .ok outs)
    (a : Address) (body : Nat) (s2 : Signer) (d2 : TxDict)
    (hs2 : s2.address = a) (hd2 : d2.nonce = none) :
    (∃ outs1 outs2 outs3, outs = outs1 ++ outs2 ++ outs3
      ∧ outs2.length = ds.length
      ∧ ∀ (i : Nat) (hi : i < outs2.length),
          signedNonce (outs2.get ⟨i, hi⟩)
            = some (env.getTransactionCount s.address + i))
    ∧ ∃ outsB, sign_bundle env [.rawTx a 5 body, .signerTx s2 d2] = .ok outsB
        ∧ outsB.map signedNonce = [some 5, some 6] := by
  constructor
  · obtain ⟨stF, specsF, haux⟩ := sign_bundle_ok_elim env _ outs h
    rw [List.append_assoc, signBundleAux_append] at haux
    cases hpre2 : signBundleAux env (fun _ => none) pre with
    | error e => rw [hpre2] at haux; exact absurd haux (by simp)
    | ok r1 =>
        obtain ⟨outs1, st1, pre'⟩ := r1
        rw [hpre2] at haux
        dsimp only at haux
        have hst1 : st1 s.address = none :=
          signBundleAux_ledger_untouched env s.address pre (fun _ => none)
            outs1 st1 pre' hpre hpre2
        obtain ⟨outs2, st2, ds', hrun, hlen, hns⟩ :=
          signBundleAux_run_nonces env s ds st1 hds
        rw [signBundleAux_append, hrun] at haux
        dsimp only at haux
        cases hsuf : signBundleAux env st2 suf with
        | error e => rw [hsuf] at haux; exact absurd haux (by simp)
        | ok r3 =>
            obtain ⟨outs3, st3, suf'⟩ := r3
            rw [hsuf] at haux
            dsimp only at haux
            have houts : outs = outs1 ++ (outs2 ++ outs3) := by
              have := haux
              simp at this
              exact this.1.symm
            refine ⟨outs1, outs2, outs3, by rw [houts, List.append_assoc],
                    hlen, ?_⟩
            intro i hi
            rw [hns i hi]
            congr 2
            rw [nonceFor, hst1]
            rfl
  · refine ⟨[SignedTx.raw a 5 body,
             (signerStep env (updateLedger (fun _ => none) a (5 + 1)) s2 d2).1],
            rfl, ?_⟩
    obtain ⟨hfst, -, -, -, -, -, h7, -, -⟩ :=
      signerStep_spec env (updateLedger (fun _ => none) a (5 + 1)) s2 d2
    obtain ⟨hnonce, -⟩ := h7 hd2
    have hcur : nonceFor env (updateLedger (fun _ => none) a (5 + 1)) s2.address
        = 6 := by
      rw [hs2]
      simp [nonceFor, updateLedger]
    rw [List.map_cons, List.map_cons, List.map_nil, hfst]
    simp [signedNonce, hnonce, hcur]

/-- Witness for C4: raw entry for sender 2 first (sender 1's slot
untouched), two nonce-less signer entries for sender 1 with chain count
10 (nonces 10 and 11), then a trailing raw entry; and the
raw-then-signer scenario for sender 4 yields nonces 5 then 6. -/
theorem sign_bundle_consecutive_nonces_witness :
    (∀ t ∈ [BundleTx.rawTx 2 0 0], touchesNonceOf (1 : Address) t = false)
    ∧ (∀ d ∈ [txd0, txd0], d.nonce = none)
    ∧ sign_bundle env0
        ([BundleTx.rawTx 2 0 0] ++ [txd0, txd0].map (BundleTx.signerTx ⟨1⟩)
          ++ [BundleTx.rawTx 9 0 0])
        = .ok [SignedTx.raw 2 0 0,
               SignedTx.signed 1 { nonce := some 10, gas := some 21000,
                                   fromAddr := some 1, rest := 4 },
               SignedTx.signed 1 { nonce := some 11, gas := some 21000,
                                   fromAddr := some 1, rest := 4 },
               SignedTx.raw 9 0 0]
    ∧ ((∃ outs1 outs2 outs3,
          [SignedTx.raw 2 0 0,
           SignedTx.signed 1 { nonce := some 10, gas := some 21000,
                               fromAddr := some 1, rest := 4 },
           SignedTx.signed 1 { nonce := some 11, gas := some 21000,
                               fromAddr := some 1, rest := 4 },
           SignedTx.raw 9 0 0] = outs1 ++ outs2 ++ outs3
          ∧ outs2.length = [txd0, txd0].length
          ∧ ∀ (i : Nat) (hi : i < outs2.length),
              signedNonce (outs2.get ⟨i, hi⟩) = some (10 + i))
      ∧ ∃ outsB, sign_bundle env0 [.rawTx 4 5 0, .signerTx ⟨4⟩ txd0] = .ok outsB
          ∧ outsB.map signedNonce = [some 5, some 6]) :=
  ⟨by decide, by decide, rfl,
   sign_bundle_consecutive_nonces env0 [BundleTx.rawTx 2 0 0] [BundleTx.rawTx 9 0 0]
     ⟨1⟩ [txd0, txd0] (by decide) (by decide)
     [SignedTx.raw 2 0 0,
      SignedTx.signed 1 { nonce := some 10, gas := some 21000,
                          fromAddr := some 1, rest := 4 },
      SignedTx.signed 1 { nonce := some 11, gas := some 21000,
                          fromAddr := some 1, rest := 4 },
      SignedTx.raw 9 0 0]
     rfl 4 0 ⟨4⟩ txd0 rfl rfl⟩

/-! ## Bundle hash -/

theorem foldl_append_eq_flatten (l : List Bytes) :
    ∀ a : Bytes, l.foldl (fun x y => x ++ y) a = a ++ l.flatten := by
  induction l with
  | nil => intro a; simp
  | cons x xs ih =>
      intro a
      simp [List.foldl_cons, ih, List.flatten, List.append_assoc]

theorem bundle_hash_eq_flatten (keccak : Bytes → Bytes) (txs : List Bytes)
    (h : txs ≠ []) :
    bundle_hash keccak txs = some (keccak (txs.map keccak).flatten) := by
  cases txs with
  | nil => exact absurd rfl h
  | cons t ts =>
      simp only [bundle_hash, List.map_cons]
      rw [foldl_append_eq_flatten]
      simp [List.flatten]

theorem flatten_inj_of_const_length (n : Nat) (hn : 0 < n) :
    ∀ l1 l2 : List Bytes, (∀ x ∈ l1, x.length = n) → (∀ x ∈ l2, x.length = n) →
      l1.flatten = l2.flatten → l1 = l2 := by
  intro l1
  induction l1 with
  | nil =>
      intro l2 _ h2 h
      cases l2 with
      | nil => rfl
      | cons y ys =>
          exfalso
          have hy : y.length = n := h2 y (by simp)
          have := congrArg List.length h
          simp [List.flatten, hy] at this
          omega
  | cons x xs ih =>
      intro l2 h1 h2 h
      cases l2 with
      | nil =>
          exfalso
          have hx : x.length = n := h1 x (by simp)
          have := congrArg List.length h
          simp [List.flatten, hx] at this
          omega
      | cons y ys =>
          simp only [List.flatten] at h
          have hlen : x.length = y.length := by
            rw [h1 x (by simp), h2 y (by simp)]
          obtain ⟨hxy, hj⟩ := List.append_inj h hlen
          rw [hxy, ih ys (fun z hz => h1 z (by simp [hz]))
                (fun z hz => h2 z (by simp [hz])) hj]

/-- C7: for every non-empty bundle, `bundle_hash` is the content hash of
the concatenation of the per-transaction hashes in bundle order; it is
deterministic; and, for a hash function that is injective with
fixed-width (32-byte) output, any two orderings of the same transactions
that differ as lists produce different bundle hashes. -/
theorem bundle_hash_spec (keccak : Bytes → Bytes) :
    (∀ txs : List Bytes, txs ≠ [] →
        bundle_hash keccak txs = some (keccak (txs.map keccak).flatten))
    ∧ (∀ txs : List Bytes, bundle_hash keccak txs = bundle_hash keccak txs)
    ∧ (Function.Injective keccak → (∀ b, (keccak b).length = 32) →
        ∀ txs1 txs2 : List Bytes, txs1 ≠ [] → txs1.Perm txs2 → txs1 ≠ txs2 →
          bundle_hash keccak txs1 ≠ bundle_hash keccak txs2) := by
  refine ⟨fun txs h => bundle_hash_eq_flatten keccak txs h, fun txs => rfl, ?_⟩
  intro hinj hlen txs1 txs2 hne1 hperm hne heq
  have hne2 : txs2 ≠ [] := by
    intro hcon
    rw [hcon] at hperm
    exact hne1 (List.Perm.eq_nil hperm)
  rw [bundle_hash_eq_flatten keccak txs1 hne1, bundle_hash_eq_flatten keccak txs2 hne2] at heq
  have hkk : keccak (txs1.map keccak).flatten = keccak (txs2.map keccak).flatten :=
    Option.some.inj heq
  have hjj : (txs1.map keccak).flatten = (txs2.map keccak).flatten := hinj hkk
  have hmm : txs1.map keccak = txs2.map keccak :=
    flatten_inj_of_const_length 32 (by omega) (txs1.map keccak) (txs2.map keccak)
      (by intro x hx; obtain ⟨b, -, hb⟩ := List.mem_map.1 hx; rw [← hb]; exact hlen b)
      (by intro x hx; obtain ⟨b, -, hb⟩ := List.mem_map.1 hx; rw [← hb]; exact hlen b)
      hjj
  exact hne (List.map_injective_iff.2 hinj hmm)

/-- Witness for C7: a concrete injective 32-byte hash distinguishes the
two orderings of two distinct transactions. -/
theorem bundle_hash_spec_witness :
    bundle_hash kc0 [[0], [1]] = some (kc0 ([[0], [1]].map kc0).flatten)
    ∧ bundle_hash kc0 [[0], [1]] ≠ bundle_hash kc0 [[1], [0]] :=
  ⟨(bundle_hash_spec kc0).1 [[0], [1]] (by decide),
   (bundle_hash_spec kc0).2.2
     (fun a b h => Encodable.encode_injective (by simpa [kc0] using congrArg List.headI h))
     (fun b => by simp [kc0])
     [[0], [1]] [[1], [0]] (by decide) (List.Perm.swap [1] [0] []) (by decide)⟩

/-! ## Private transaction tracker -/

theorem waitFuel_not_mined (found : Nat → Bool) (height : Nat → Nat)
    (maxBlock : Nat) (hfound : ∀ u, found u = false) :
    ∀ (fuel t : Nat), waitFuel found height maxBlock t fuel ≠ some true := by
  intro fuel
  induction fuel with
  | zero => intro t; simp [waitFuel]
  | succ n ih =>
      intro t
      rw [waitFuel, hfound t]
      by_cases hh : maxBlock < height t
      · simp [hh]
      · simpa [hh] using ih (t + 1)

theorem waitFuel_expired_iff (found : Nat → Bool) (height : Nat → Nat)
    (maxBlock : Nat) (hfound : ∀ u, found u = false) :
    ∀ (fuel t : Nat),
      waitFuel found height maxBlock t fuel = some false
        ↔ ∃ i < fuel, maxBlock < height (t + i) := by
  intro fuel
  induction fuel with
  | zero => intro t; simp [waitFuel]
  | succ n ih =>
      intro t
      rw [waitFuel, hfound t]
      by_cases hh : maxBlock < height t
      · simp only [hh, if_true, Bool.false_eq_true, if_false]
        constructor
        · intro _
          exact ⟨0, by omega, by simpa using hh⟩
        · intro _
          trivial
      · simp only [hh, Bool.false_eq_true, if_false]
        rw [ih (t + 1)]
        constructor
        · rintro ⟨i, hi, hgt⟩
          exact ⟨i + 1, by omega, by rw [show t + (i + 1) = t + 1 + i by omega]; exact hgt⟩
        · rintro ⟨i, hi, hgt⟩
          cases i with
          | zero => exact absurd (by simpa using hgt) hh
          | succ j =>
              exact ⟨j, by omega, by rw [show t + 1 + j = t + (j + 1) by omega]; exact hgt⟩

theorem waitFuel_first_exceed (found : Nat → Bool) (height : Nat → Nat)
    (maxBlock : Nat) (hfound : ∀ u, found u = false) :
    ∀ (i t : Nat), (∀ j < i, height (t + j) ≤ maxBlock) →
      maxBlock < height (t + i) →
      waitFuel found height maxBlock t (i + 1) = some false := by
  intro i
  induction i with
  | zero =>
      intro t _ hi
      rw [waitFuel, hfound t]
      simp only [Bool.false_eq_true, if_false]
      rw [if_pos (by simpa using hi)]
  | succ k ih =>
      intro t hj hi
      rw [waitFuel, hfound t]
      have h0 : ¬ maxBlock < height t := by
        have := hj 0 (by omega)
        simpa using Nat.not_lt.2 this
      simp only [Bool.false_eq_true, if_false]
      rw [if_neg h0]
      exact ih (t + 1)
        (fun j hjk => by
          rw [show t + 1 + j = t + (j + 1) by omega]
          exact hj (j + 1) (by omega))
        (by rw [show t + 1 + k = t + (k + 1) by omega]; exact hi)

/-- C8: for a private transaction whose lookup never succeeds, `wait`
returns the expired outcome exactly when some poll observes a block
height strictly above `max_block_number`; it stops at the first such
poll; `receipt` then returns `None` rather than an error; and in general
`receipt` returns a fetched receipt only when `wait` mined. -/
theorem private_tx_expiry_spec (found : Nat → Bool) (height : Nat → Nat)
    (maxBlock rcpt : Nat) (hfound : ∀ u, found u = false) :
    (∀ fuel t, waitFuel found height maxBlock t fuel = some false
        ↔ ∃ i < fuel, maxBlock < height (t + i))
    ∧ (∀ t i, (∀ j < i, height (t + j) ≤ maxBlock) →
        maxBlock < height (t + i) →
        waitFuel found height maxBlock t (i + 1) = some false)
    ∧ (∀ t fuel r, receiptFuel found height maxBlock rcpt t fuel = some r →
        r = none)
    ∧ (∀ (found2 : Nat → Bool) (t fuel rc2 : Nat),
        receiptFuel found2 height maxBlock rcpt t fuel = some (some rc2) →
        waitFuel found2 height maxBlock t fuel = some true ∧ rc2 = rcpt) := by
  refine ⟨fun fuel t => waitFuel_expired_iff found height maxBlock hfound fuel t,
          fun t i => waitFuel_first_exceed found height maxBlock hfound i t,
          ?_, ?_⟩
  · intro t fuel r h
    unfold receiptFuel at h
    cases hw : waitFuel found height maxBlock t fuel with
    | none => rw [hw] at h; exact absurd h (by simp)
    | some m =>
        rw [hw] at h
        cases m with
        | true => exact absurd hw (waitFuel_not_mined found height maxBlock hfound fuel t)
        | false => simpa using h.symm
  · intro found2 t fuel rc2 h
    unfold receiptFuel at h
    cases hw : waitFuel found2 height maxBlock t fuel with
    | none => rw [hw] at h; exact absurd h (by simp)
    | some m =>
        rw [hw] at h
        cases m with
        | true => exact ⟨rfl, by simpa using h.symm⟩
        | false => simp at h

/-- Witness for C8 with heights 100, 101, 102 against deadline 101: the
tracker expires at the third poll, its receipt is `None`, and a tracker
whose lookup succeeds immediately is mined with the fetched receipt. -/
theorem private_tx_expiry_spec_witness :
    waitFuel (fun _ => false) (fun t => 100 + t) 101 0 3 = some false
    ∧ (none : Option Nat) = none
    ∧ (waitFuel (fun _ => true) (fun t => 100 + t) 101 0 1 = some true ∧ 55 = 55) :=
  ⟨(private_tx_expiry_spec (fun _ => false) (fun t => 100 + t) 101 55
      (fun _ => rfl)).2.1 0 2 (by decide) (by decide),
   (private_tx_expiry_spec (fun _ => false) (fun t => 100 + t) 101 55
      (fun _ => rfl)).2.2.1 0 3 none rfl,
   (private_tx_expiry_spec (fun _ => false) (fun t => 100 + t) 101 55
      (fun _ => rfl)).2.2.2 (fun _ => true) 0 1 55 rfl⟩
